import Mathlib

/-!
Verification of the contractor-extraction ETL pipeline
(`dags/extract_contratista_etl.py`).

Texts are modelled as `List Char`.  Python regular-expression steps are
translated into explicit recursive functions on character lists; machine
behaviour that lives outside the repository (the PostgreSQL server, the
LLM service) is modelled as explicit state / parameters.
-/

namespace Etl

/-! ## Basic character/string utilities shared by several functions -/

/-- ASCII/Spanish lower-casing used to model Python `str.lower()` and
`re.IGNORECASE` on the alphabets that occur in the source patterns. -/
def caseFold (c : Char) : Char :=
  if 'A' ≤ c ∧ c ≤ 'Z' then Char.ofNat (c.toNat + 32)
  else if c = 'Á' then 'á'
  else if c = 'É' then 'é'
  else if c = 'Í' then 'í'
  else if c = 'Ó' then 'ó'
  else if c = 'Ú' then 'ú'
  else if c = 'Ñ' then 'ñ'
  else c

/-- Whitespace test modelling Python `\s` / `str.strip()` on the
characters that actually occur in these documents. -/
def isWs (c : Char) : Bool := c.isWhitespace

/-- Python `str.strip()`: drop whitespace from both ends. -/
def strip (l : List Char) : List Char :=
  ((l.dropWhile isWs).reverse.dropWhile isWs).reverse

/-- Digit test for the ASCII digits used by the pipeline patterns. -/
def isDig (c : Char) : Bool := decide ('0' ≤ c ∧ c ≤ '9')

/-- `only_digits` (line 174): `re.sub(r"\D+", "", value)`. -/
def only_digits (l : List Char) : List Char := l.filter isDig

/-- Case-insensitive prefix test (`re.IGNORECASE` matching of a literal). -/
def startsWithCI (l : List Char) (pat : List Char) : Bool :=
  decide ((l.take pat.length).map caseFold = pat.map caseFold)

/-- Case-insensitive substring search, modelling `re.search` of a literal
pattern with `re.IGNORECASE`. -/
def containsCI (hay pat : List Char) : Bool :=
  (List.range (hay.length + 1)).any (fun i => startsWithCI (hay.drop i) pat)

/-! ## Normalizer (lines 290-292 of `pre_filtro`, identically 582-584)

```python
texto_norm = texto.replace("\r", "").replace("\t", " ")
texto_norm = re.sub(r"[ \t]+", " ", texto_norm)
texto_norm = re.sub(r"\n{3,}", "\n\n", texto_norm)
```
-/

/-- `replace("\r", "").replace("\t", " ")`: carriage returns are removed,
tabs become spaces. -/
def normPass1 (l : List Char) : List Char :=
  (l.filter (fun c => decide (c ≠ '\r'))).map (fun c => if c = '\t' then ' ' else c)

/-- `re.sub(r"[ \t]+", " ", ·)` applied after tabs are gone: collapse each
maximal run of spaces to a single space. -/
def squeezeSp : List Char → List Char
  | [] => []
  | [c] => [c]
  | a :: b :: rest =>
    if a = ' ' ∧ b = ' ' then squeezeSp (b :: rest)
    else a :: squeezeSp (b :: rest)

/-- `re.sub(r"\n{3,}", "\n\n", ·)`: collapse each maximal run of three or
more newlines to exactly two. -/
def squeezeNl : List Char → List Char
  | a :: b :: c :: rest =>
    if a = '\n' ∧ b = '\n' ∧ c = '\n' then squeezeNl (b :: c :: rest)
    else a :: squeezeNl (b :: c :: rest)
  | l => l

/-- The whitespace Normalizer of the pipeline (lines 290-292 / 582-584). -/
def normalizar (l : List Char) : List Char :=
  squeezeNl (squeezeSp (normPass1 l))

/-- No two adjacent spaces (the post-state of `re.sub(r"[ \t]+", " ")`). -/
def noDoubleSp : List Char → Bool
  | a :: b :: rest => !(decide (a = ' ' ∧ b = ' ')) && noDoubleSp (b :: rest)
  | _ => true

/-- No three adjacent newlines (post-state of `re.sub(r"\n{3,}", "\n\n")`). -/
def noTripleNl : List Char → Bool
  | a :: b :: c :: rest =>
    !(decide (a = '\n' ∧ b = '\n' ∧ c = '\n')) && noTripleNl (b :: c :: rest)
  | _ => true

/-! ## Block Isolator `pre_filtro` (lines 273-424)

The regular-expression engine that enumerates trigger matches is external
to the model: `preFiltro` takes the list of raw matches (start offset, end
offset, before-window, after-window) found in the lower-cased normalized
text, and performs the rest of the algorithm exactly as the source does:
window clamping, overlap extension, the 8,000-character fallback, sorting,
proximity fusion (< 500 chars), joining with the visible separator and the
12,000-character cap. -/

structure PatMatch where
  ini : Nat
  fin : Nat
  antes : Nat
  despues : Nat

/-- `not (fin < inicio_exist or inicio > fin_exist)` (line 374). -/
def overlaps (lo hi : Nat) (b : Nat × Nat) : Bool :=
  !(decide (hi < b.1) || decide (b.2 < lo))

/-- One iteration of the duplicate-avoidance loop (lines 371-385): find the
first stored block that overlaps, extend it if the new window sticks out,
otherwise keep the list; append the window when nothing overlaps. -/
def addBlock (bs : List (Nat × Nat)) (lo hi : Nat) : List (Nat × Nat) :=
  match bs.find? (overlaps lo hi) with
  | none => bs ++ [(lo, hi)]
  | some b =>
    if lo < b.1 ∨ b.2 < hi then (bs.erase b) ++ [(min lo b.1, max hi b.2)]
    else bs

/-- All matches of all patterns, each clamped to
`[max 0 (start - antes), min len (end + despues)]` (lines 364-385). -/
def collectBlocks (tn : List Char) (ms : List PatMatch) : List (Nat × Nat) :=
  ms.foldl (fun acc m => addBlock acc (m.ini - m.antes) (min tn.length (m.fin + m.despues))) []

/-- Stable insertion by start offset, modelling `list.sort(key=lambda x: x[0])`. -/
def insertBlk (b : Nat × Nat) : List (Nat × Nat) → List (Nat × Nat)
  | [] => [b]
  | x :: xs => if b.1 ≤ x.1 then b :: x :: xs else x :: insertBlk b xs

/-- Stable sort by start offset (line 393). -/
def sortBlks : List (Nat × Nat) → List (Nat × Nat)
  | [] => []
  | b :: rest => insertBlk b (sortBlks rest)

/-- Proximity fusion (lines 396-408): merge consecutive sorted blocks whose
gap is below 500 characters.  Nat subtraction mirrors the Python `int`
comparison: a negative gap also satisfies `< 500`. -/
def fuseBlks : List (Nat × Nat) → List (Nat × Nat)
  | [] => []
  | [b] => [b]
  | a :: b :: rest =>
    if b.1 - a.2 < 500 then fuseBlks ((a.1, max b.2 a.2) :: rest)
    else a :: fuseBlks (b :: rest)
  termination_by l => l.length

/-- `texto_norm[inicio:fin]`. -/
def slice (tn : List Char) (b : Nat × Nat) : List Char :=
  (tn.drop b.1).take (b.2 - b.1)

/-- The visible separator `"\n\n---\n\n"` (line 411). -/
def sepBlk : List Char := '\n' :: '\n' :: '-' :: '-' :: '-' :: '\n' :: '\n' :: []

/-- `"\n\n---\n\n".join(...)`. -/
def joinSep : List (List Char) → List Char
  | [] => []
  | [b] => b
  | b :: c :: rest => b ++ sepBlk ++ joinSep (c :: rest)

/-- `pre_filtro` (lines 273-424), parameterized by the trigger matches. -/
def preFiltro (texto : List Char) (ms : List PatMatch) : List Char :=
  if texto = [] then []
  else
    let tn := normalizar texto
    let bs := collectBlocks tn ms
    if bs = [] then tn.take 8000
    else
      let fused := fuseBlks (sortBlks bs)
      let joined := joinSep (fused.map (slice tn))
      if 12000 < joined.length then joined.take 12000 else joined

/-! ## `normalize_phone` (lines 178-224) -/

/-- Split on `/` and `,`, modelling `re.split(r"\s*[/,]\s*", s)`: the
pattern's surrounding `\s*` is redundant here because every part is
immediately passed through `str.strip()` by the loop. -/
def splitSep : List Char → List (List Char)
  | [] => [[]]
  | c :: rest =>
    if c = '/' ∨ c = ',' then [] :: splitSep rest
    else
      match splitSep rest with
      | [] => [[c]]
      | p :: ps => (c :: p) :: ps

def headIsWs : List Char → Bool
  | c :: _ => isWs c
  | [] => false

/-- Full match of the suffix part `\s*\d+` of the extension pattern. -/
def extRest (l : List Char) : Bool :=
  let d := l.dropWhile isWs
  decide (d ≠ []) && d.all isDig

/-- Does `l` fully match `(?:ext\.?|x)\s*\d+` (case-insensitive)? -/
def extMatch (l : List Char) : Bool :=
  (startsWithCI l ('e' :: 'x' :: 't' :: '.' :: []) && extRest (l.drop 4)) ||
  (startsWithCI l ('e' :: 'x' :: 't' :: []) && extRest (l.drop 3)) ||
  (startsWithCI l ('x' :: []) && extRest (l.drop 1))

/-- `re.sub(r"(?:ext\.?|x)\s*\d+$", "", phone)`: delete the leftmost match
that reaches the end of the string, when one exists. -/
def stripExt (l : List Char) : List Char :=
  match (List.range l.length).find? (fun p => extMatch (l.drop p)) with
  | some p => l.take p
  | none => l

/-- `re.sub(r"^\+593\s*", "0", phone)`. -/
def norm593 (l : List Char) : List Char :=
  if l.take 4 = '+' :: '5' :: '9' :: '3' :: [] then '0' :: ((l.drop 4).dropWhile isWs)
  else l

/-- `re.fullmatch(r"09\d{8}", digits)`. -/
def isCel (l : List Char) : Bool :=
  decide (l.length = 10 ∧ l.take 2 = '0' :: '9' :: []) && l.all isDig

/-- Leading `0[2-7]` of the landline pattern. -/
def isFijoPre : List Char → Bool
  | c0 :: c1 :: _ => decide (c0 = '0' ∧ '2' ≤ c1 ∧ c1 ≤ '7')
  | _ => false

/-- `re.fullmatch(r"0[2-7]\d{7}", digits)`. -/
def isFijo (l : List Char) : Bool :=
  decide (l.length = 9) && l.all isDig && isFijoPre l

/-- Body of the per-part loop (lines 189-205): strip, drop extension
suffix, normalize the `+593` prefix, keep the digits, classify. -/
def processPart (part : List Char) : Option (Bool × List Char) :=
  let phone := strip part
  if phone = [] then none
  else
    let phone2 := strip (stripExt phone)
    let phone3 := norm593 phone2
    let digits := only_digits phone3
    if isCel digits then some (true, digits)
    else if isFijo digits then some (false, digits)
    else none

/-- `valid_phones` after the loop; the Bool marks `"celular"`. -/
def validPhones (s : List Char) : List (Bool × List Char) :=
  (splitSep s).filterMap processPart

/-- Last-resort attempt on the whole original string (lines 216-224). -/
def phoneFallback (s : List Char) : Option (List Char) :=
  let s2 := strip (stripExt s)
  let s3 := norm593 s2
  let d := only_digits s3
  if isCel d then some d
  else if isFijo d then some d
  else none

/-- `normalize_phone` (lines 178-224). -/
def normalize_phone (raw : Option (List Char)) : Option (List Char) :=
  match raw with
  | none => none
  | some r =>
    let s := strip r
    if s = [] then none
    else
      let valid := validPhones s
      match valid.find? (fun x => x.1) with
      | some x => some x.2
      | none =>
        match valid with
        | v :: _ => some v.2
        | [] => phoneFallback s

/-! ## `validar_representante` (lines 1357-1437) -/

/-- The honorific alternatives of
`^(Ing\.?|Arq\.?|Abg\.?|Dr\.?|Dra\.?|Sr\.?|Sra\.?|Lic\.?|Msc\.?|Mg\.?|MBA\.?|Eco\.?)\s+`,
lower-cased (the sub runs with `re.IGNORECASE`). -/
def titleBases : List (List Char) :=
  ["ing".data, "arq".data, "abg".data, "dr".data, "dra".data, "sr".data,
   "sra".data, "lic".data, "msc".data, "mg".data, "mba".data, "eco".data]

/-- Match one honorific alternative at the start: base, then an optional
dot, then at least one whitespace; returns the remainder after the greedy
`\s+`.  (With the dot consumed but no whitespace after it the engine
backtracks to the dot-less branch, which then fails on the dot itself.) -/
def matchTitle (l : List Char) (b : List Char) : Option (List Char) :=
  if startsWithCI l b then
    let r := l.drop b.length
    match r with
    | '.' :: r2 => if headIsWs r2 then some (r2.dropWhile isWs) else none
    | _ => if headIsWs r then some (r.dropWhile isWs) else none
  else none

/-- `re.sub(title_pattern, "", representante)` anchored at the start: at
most one honorific prefix is removed. -/
def stripTitle (l : List Char) : List Char :=
  match titleBases.findSome? (fun b => matchTitle l b) with
  | some rest => rest
  | none => l

/-- `re.search(r"CIA\s+LTDA", ·, re.IGNORECASE)`. -/
def hasCiaLtda (l : List Char) : Bool :=
  (List.range (l.length + 1)).any (fun i =>
    let t := l.drop i
    startsWithCI t "cia".data && headIsWs (t.drop 3) &&
      startsWithCI ((t.drop 3).dropWhile isWs) "ltda".data)

/-- The company-keyword rejection (lines 1389-1405): each keyword is
searched as a case-insensitive substring anywhere in the candidate. -/
def empresaKeyword (l : List Char) : Bool :=
  containsCI l "ltda".data || containsCI l "s.a.".data ||
  containsCI l "consorcio".data || containsCI l "cia".data ||
  containsCI l "ep".data || hasCiaLtda l ||
  containsCI l "compañía".data || containsCI l "compañia".data ||
  containsCI l "gasolinera".data || containsCI l "avenida".data ||
  containsCI l "calle".data

/-- The public-office-title rejection (lines 1407-1423). -/
def cargoKeyword (l : List Char) : Bool :=
  containsCI l "coordinador".data || containsCI l "director".data ||
  containsCI l "administrador".data || containsCI l "gerente".data ||
  containsCI l "jefe".data || containsCI l "secretario".data ||
  containsCI l "ministro".data || containsCI l "alcalde".data ||
  containsCI l "prefecto".data || containsCI l "gobernador".data

/-- First character of `^[A-ZÁÉÍÓÚÑ]...`. -/
def upperRep (c : Char) : Bool :=
  decide (('A' ≤ c ∧ c ≤ 'Z') ∨ c ∈ ['Á', 'É', 'Í', 'Ó', 'Ú', 'Ñ'])

/-- Continuation class `[a-záéíóúñ\s-]` of the token pattern. -/
def restRep (c : Char) : Bool :=
  decide (('a' ≤ c ∧ c ≤ 'z') ∨ c ∈ ['á', 'é', 'í', 'ó', 'ú', 'ñ']) ||
  isWs c || decide (c = '-')

/-- Per-token check (lines 1431-1435): `palabra[0].isupper()` together
with `re.match(r"^[A-ZÁÉÍÓÚÑ][a-záéíóúñ\s-]*$", palabra)`.  The
`isupper()` test is subsumed: every character admitted by the leading
class of the pattern is an uppercase letter. -/
def tokenRep : List Char → Bool
  | [] => false
  | c :: rest => upperRep c && rest.all restRep

/-- Python `str.split()`: whitespace-separated words, empties dropped. -/
def words (l : List Char) : List (List Char) :=
  (l.splitOnP isWs).filter (fun w => decide (w ≠ []))

/-- `validar_representante` (lines 1357-1437); the early-`return False`
chain is rendered as a conjunction in the source order. -/
def validar_representante (rep : Option (List Char)) : Bool :=
  match rep with
  | none => false
  | some r0 =>
    let r := strip (stripTitle (strip r0))
    decide (6 ≤ r.length ∧ r.length ≤ 120) &&
    !(r.any isDig) &&
    !(empresaKeyword r) &&
    !(cargoKeyword r) &&
    (let palabras := words r
     decide (2 ≤ palabras.length ∧ palabras.length ≤ 4) &&
     palabras.all tokenRep)

/-- Letters (plain or accented) as the claim "contains only letters,
hyphens and accented letters" reads them, case unrestricted. -/
def letterRep (c : Char) : Bool :=
  decide (('A' ≤ c ∧ c ≤ 'Z') ∨ ('a' ≤ c ∧ c ≤ 'z') ∨
    c ∈ ['Á', 'É', 'Í', 'Ó', 'Ú', 'Ñ', 'á', 'é', 'í', 'ó', 'ú', 'ñ'])

/-- Token condition exactly as claim C7 words it: starts with an uppercase
letter and contains only letters, hyphens and accented letters. -/
def tokenClaimC7 : List Char → Bool
  | [] => false
  | c :: rest => upperRep c && (c :: rest).all (fun d => letterRep d || decide (d = '-'))

/-- Acceptance condition of claim C7, assembled from the claim sentence
as written (its token rule is case-unrestricted after the first letter). -/
def claimC7Accept (s : List Char) : Bool :=
  let t := strip (stripTitle (strip s))
  let toks := words t
  decide (2 ≤ toks.length ∧ toks.length ≤ 4) &&
  !(t.any isDig) &&
  !(empresaKeyword t) &&
  !(cargoKeyword t) &&
  decide (6 ≤ t.length ∧ t.length ≤ 120) &&
  toks.all tokenClaimC7

/-- Acceptance condition of claim C7 as amended: the characters after a
token's uppercase initial must be lowercase (plain or accented) letters or
hyphens. -/
def amendedC7Accept (s : List Char) : Bool :=
  let t := strip (stripTitle (strip s))
  let toks := words t
  decide (2 ≤ toks.length ∧ toks.length ≤ 4) &&
  !(t.any isDig) &&
  !(empresaKeyword t) &&
  !(cargoKeyword t) &&
  decide (6 ≤ t.length ∧ t.length ≤ 120) &&
  toks.all tokenRep

/-! ## Tax-ID validation inside `llm` (lines 1995-2006) -/

/-- The `ruc` branch of the final validation block of `llm`
(lines 1995-2006): empty/`"null"`/`"none"` filtered, digits kept, length
10-13 required, all-zero/all-one/all-nine rejected. -/
def validar_ruc_llm (ruc : Option (List Char)) : Option (List Char) :=
  match ruc with
  | none => none
  | some r =>
    let low := r.map caseFold
    if r = [] ∨ low = "null".data ∨ low = "none".data ∨ low = [] then none
    else
      let ds := only_digits r
      if 10 ≤ ds.length ∧ ds.length ≤ 13 then
        if ds.all (fun c => decide (c = '0')) ∨ ds.all (fun c => decide (c = '1')) ∨
           ds.all (fun c => decide (c = '9')) then none
        else some ds
      else none

/-! ## `fusionar_resultados` (lines 1508-1539) and the per-chunk fold
(lines 1923-1939) -/

inductive Campo where
  | razon_social | representante | ruc | telefono | mail | domicilio
deriving DecidableEq

structure Extraccion where
  razon_social : Option String
  representante : Option String
  ruc : Option String
  telefono : Option String
  mail : Option String
  domicilio : Option String
deriving DecidableEq

def Extraccion.get (e : Extraccion) : Campo → Option String
  | .razon_social => e.razon_social
  | .representante => e.representante
  | .ruc => e.ruc
  | .telefono => e.telefono
  | .mail => e.mail
  | .domicilio => e.domicilio

/-- `not valor or valor in ["null", "none", ""]`. -/
def vacio (v : Option String) : Bool :=
  match v with
  | none => true
  | some s => decide (s = "" ∨ s = "null" ∨ s = "none")

/-- Per-field rule of `fusionar_resultados`: take `nuevo` only when the
base value is empty and the new one is not; otherwise keep the base. -/
def fuseField (b n : Option String) : Option String :=
  if vacio b && !(vacio n) then n else b

/-- `fusionar_resultados` (lines 1508-1539). -/
def fusionar_resultados (base nuevo : Extraccion) : Extraccion where
  razon_social := fuseField base.razon_social nuevo.razon_social
  representante := fuseField base.representante nuevo.representante
  ruc := fuseField base.ruc nuevo.ruc
  telefono := fuseField base.telefono nuevo.telefono
  mail := fuseField base.mail nuevo.mail
  domicilio := fuseField base.domicilio nuevo.domicilio

/-! ## `update_postgres` (lines 2430-2838)

The PostgreSQL server is modelled as explicit state: a list of rows keyed
by `codigo_proceso`, each row a map from column name to stored value.
`NOW()` and the jsonb merge `metadata = COALESCE(metadata,'{}') || %s` are
server-side computations and enter the model as parameters.  The model
covers the code path from the existence check (line 2547) through the
`UPDATE` (lines 2730-2752); its field-map input is the
`datos_contratista` dictionary as it stands at the set-clause loop
(line 2660), i.e. after the razon_social/representante cleanup. -/

def CONTRATISTA_FIELDS : List String :=
  ["razon_social", "representante", "ruc", "telefono", "mail", "domicilio"]

inductive SetClause where
  | assign (col : String) (v : String)
  | assignNow (col : String)
  | metaMerge (json : String)
deriving DecidableEq

/-- Column targeted by a clause. -/
def SetClause.col : SetClause → String
  | .assign c _ => c
  | .assignNow c => c
  | .metaMerge _ => "metadata"

/-- `add_update` (lines 2585-2599): append `column = %s` only when the
column exists in the live schema and the value is neither `None` nor
blank. -/
def addUpdate (avail : List String) (cs : List SetClause) (col : String)
    (v : Option String) : List SetClause :=
  if col ∈ avail then
    match v with
    | none => cs
    | some s => if strip s.data = [] then cs else cs ++ [.assign col s]
  else cs

/-- `None`-or-blank test of `add_update`
(`value is None or (isinstance(value, str) and not value.strip())`). -/
def blankV (v : Option String) : Bool :=
  match v with
  | none => true
  | some s => decide (strip s.data = [])

/-- Lower-cased substring test for the last-resort date-column search. -/
def containsLC (c : String) (sub : String) : Bool := containsCI c.data sub.data

/-- Lines 2601-2608: seed the clause list with `updated_at = NOW()` or
`fecha_actualizacion = NOW()` when such a column exists. -/
def dateClause (avail : List String) : List SetClause :=
  if "updated_at" ∈ avail then [.assignNow "updated_at"]
  else if "fecha_actualizacion" ∈ avail then [.assignNow "fecha_actualizacion"]
  else []

/-- Lines 2660-2671: run `add_update` over the six contractor fields. -/
def fieldClauses (avail : List String) (datos : String → Option String)
    (cs0 : List SetClause) : List SetClause :=
  CONTRATISTA_FIELDS.foldl
    (fun cs campo =>
      if campo ∈ avail then addUpdate avail cs campo (datos campo) else cs) cs0

/-- Lines 2699-2707: the last-resort date-like column when no clause was
generated (`available_columns` iterated in the model's list order). -/
def fallbackClause (avail : List String) : List SetClause :=
  match avail.find? (fun c =>
      containsLC c "fecha" || containsLC c "updated" || containsLC c "actualizacion") with
  | some c => [.assignNow c]
  | none => []

/-- Lines 2582-2678: the clause list before the last-resort check:
`updated_at`/`fecha_actualizacion`, the six contractor fields through
`add_update`, `fuente_archivo`, the `metadata` jsonb merge. -/
def preClauses (avail : List String) (datos : String → Option String)
    (fileName : Option String) (metaJson : String) : List SetClause :=
  let cs1 := fieldClauses avail datos (dateClause avail)
  let cs2 := if "fuente_archivo" ∈ avail then addUpdate avail cs1 "fuente_archivo" fileName else cs1
  if "metadata" ∈ avail then cs2 ++ [.metaMerge metaJson] else cs2

/-- The set-clause construction (lines 2582-2707): the generated clauses,
or the last-resort date column when none was generated. -/
def setClauses (avail : List String) (datos : String → Option String)
    (fileName : Option String) (metaJson : String) : List SetClause :=
  if preClauses avail datos fileName metaJson = [] then fallbackClause avail
  else preClauses avail datos fileName metaJson

/-- Effect of one SQL set clause on a row (`nowVal` is the server clock,
`jsonbConcat` the server-side jsonb merge). -/
def applyClause (nowVal : String) (jsonbConcat : Option String → String → String)
    (row : String → Option String) : SetClause → String → Option String
  | .assign c v => fun col => if col = c then some v else row col
  | .assignNow c => fun col => if col = c then some nowVal else row col
  | .metaMerge j => fun col =>
      if col = "metadata" then some (jsonbConcat (row "metadata") j) else row col

/-- Effect of the whole `SET` list on a row. -/
def applyClauses (nowVal : String) (jsonbConcat : Option String → String → String)
    (row : String → Option String) (cs : List SetClause) : String → Option String :=
  cs.foldl (fun r sc => applyClause nowVal jsonbConcat r sc) row

inductive UpdStatus where
  | success | skipped | error
deriving DecidableEq

/-- `update_postgres` (lines 2430-2838) against the modelled store: the
existence check (lines 2547-2566) returns `skipped` and leaves the store
untouched when no row has the process code; otherwise the single-row
`UPDATE ... WHERE codigo_proceso = %s` (lines 2730-2752) runs, and an
empty clause list raises (`error`, lines 2709-2728) before any write. -/
def update_postgres (db : List (String × (String → Option String))) (codigo : String)
    (avail : List String) (datos : String → Option String) (fileName : Option String)
    (metaJson nowVal : String) (jsonbConcat : Option String → String → String) :
    List (String × (String → Option String)) × UpdStatus :=
  match db.find? (fun r => r.1 == codigo) with
  | none => (db, .skipped)
  | some _ =>
    let cs := setClauses avail datos fileName metaJson
    if cs = [] then (db, .error)
    else
      (db.map (fun r =>
        if r.1 = codigo then (r.1, applyClauses nowVal jsonbConcat r.2 cs) else r),
       .success)

/-! # Theorems -/

/-! ### Lemmas about the Normalizer -/

theorem squeezeSp_head (x : Char) (xs : List Char) :
    ∃ t, squeezeSp (x :: xs) = x :: t := by
  induction xs generalizing x with
  | nil => exact ⟨[], rfl⟩
  | cons y ys ih =>
    by_cases h : x = ' ' ∧ y = ' '
    · obtain ⟨t, ht⟩ := ih y
      exact ⟨t, by rw [squeezeSp, if_pos h, ht, h.1, h.2]⟩
    · exact ⟨squeezeSp (y :: ys), by rw [squeezeSp, if_neg h]⟩

theorem noDoubleSp_squeezeSp (l : List Char) : noDoubleSp (squeezeSp l) = true := by
  induction l with
  | nil => rfl
  | cons a l ih =>
    cases l with
    | nil => rfl
    | cons b rest =>
      by_cases h : a = ' ' ∧ b = ' '
      · rw [squeezeSp, if_pos h]; exact ih
      · rw [squeezeSp, if_neg h]
        obtain ⟨t, ht⟩ := squeezeSp_head b rest
        rw [ht]
        rw [ht] at ih
        simpa [noDoubleSp, h] using ih

theorem squeezeSp_of_noDoubleSp (l : List Char) (h : noDoubleSp l = true) :
    squeezeSp l = l := by
  induction l with
  | nil => rfl
  | cons a l ih =>
    cases l with
    | nil => rfl
    | cons b rest =>
      rw [noDoubleSp, Bool.and_eq_true] at h
      have hab : ¬(a = ' ' ∧ b = ' ') := by
        intro hc
        simp [hc.1, hc.2] at h
      rw [squeezeSp, if_neg hab, ih h.2]

theorem squeezeNl_take2 (a b : Char) (rest : List Char) :
    ∃ t, squeezeNl (a :: b :: rest) = a :: b :: t := by
  induction rest generalizing a b with
  | nil => exact ⟨[], rfl⟩
  | cons c rs ih =>
    by_cases h : a = '\n' ∧ b = '\n' ∧ c = '\n'
    · obtain ⟨t, ht⟩ := ih b c
      refine ⟨t, ?_⟩
      rw [squeezeNl, if_pos h, ht, h.1, h.2.1, h.2.2]
    · obtain ⟨t, ht⟩ := ih b c
      refine ⟨c :: t, ?_⟩
      rw [squeezeNl, if_neg h, ht]

theorem noTripleNl_squeezeNl (l : List Char) : noTripleNl (squeezeNl l) = true := by
  induction l with
  | nil => rfl
  | cons a l ih =>
    cases l with
    | nil => rfl
    | cons b rest =>
      cases rest with
      | nil => simp [squeezeNl, noTripleNl]
      | cons c rs =>
        by_cases h : a = '\n' ∧ b = '\n' ∧ c = '\n'
        · rw [squeezeNl, if_pos h]; exact ih
        · rw [squeezeNl, if_neg h]
          obtain ⟨t, ht⟩ := squeezeNl_take2 b c rs
          rw [ht]
          rw [ht] at ih
          simpa [noTripleNl, h] using ih

theorem squeezeNl_of_noTripleNl (l : List Char) (h : noTripleNl l = true) :
    squeezeNl l = l := by
  induction l with
  | nil => rfl
  | cons a l ih =>
    cases l with
    | nil => rfl
    | cons b rest =>
      cases rest with
      | nil => simp [squeezeNl]
      | cons c rs =>
        rw [noTripleNl, Bool.and_eq_true] at h
        have habc : ¬(a = '\n' ∧ b = '\n' ∧ c = '\n') := by
          intro hc
          simp [hc.1, hc.2.1, hc.2.2] at h
        rw [squeezeNl, if_neg habc, ih h.2]

theorem noDoubleSp_squeezeNl (l : List Char) (h : noDoubleSp l = true) :
    noDoubleSp (squeezeNl l) = true := by
  induction l with
  | nil => rfl
  | cons a l ih =>
    cases l with
    | nil => rfl
    | cons b rest =>
      cases rest with
      | nil => simpa [squeezeNl] using h
      | cons c rs =>
        rw [noDoubleSp, Bool.and_eq_true] at h
        by_cases habc : a = '\n' ∧ b = '\n' ∧ c = '\n'
        · rw [squeezeNl, if_pos habc]; exact ih h.2
        · rw [squeezeNl, if_neg habc]
          obtain ⟨t, ht⟩ := squeezeNl_take2 b c rs
          rw [ht]
          have ih2 := ih h.2
          rw [ht] at ih2
          simp only [noDoubleSp, Bool.and_eq_true] at ih2 ⊢
          exact ⟨h.1, ih2⟩

theorem mem_squeezeSp {c : Char} {l : List Char} (h : c ∈ squeezeSp l) : c ∈ l := by
  induction l with
  | nil => simpa [squeezeSp] using h
  | cons a l ih =>
    cases l with
    | nil => simpa [squeezeSp] using h
    | cons b rest =>
      by_cases hab : a = ' ' ∧ b = ' '
      · rw [squeezeSp, if_pos hab] at h
        exact List.mem_cons_of_mem a (ih h)
      · rw [squeezeSp, if_neg hab] at h
        rcases List.mem_cons.mp h with h1 | h2
        · exact h1 ▸ List.mem_cons_self a _
        · exact List.mem_cons_of_mem a (ih h2)

theorem mem_squeezeNl {c : Char} {l : List Char} (h : c ∈ squeezeNl l) : c ∈ l := by
  induction l with
  | nil => simpa [squeezeNl] using h
  | cons a l ih =>
    cases l with
    | nil => simpa [squeezeNl] using h
    | cons b rest =>
      cases rest with
      | nil => simpa [squeezeNl] using h
      | cons d rs =>
        by_cases habc : a = '\n' ∧ b = '\n' ∧ d = '\n'
        · rw [squeezeNl, if_pos habc] at h
          exact List.mem_cons_of_mem a (ih h)
        · rw [squeezeNl, if_neg habc] at h
          rcases List.mem_cons.mp h with h1 | h2
          · exact h1 ▸ List.mem_cons_self a _
          · exact List.mem_cons_of_mem a (ih h2)

theorem normPass1_no_cr_tab (l : List Char) :
    '\r' ∉ normPass1 l ∧ '\t' ∉ normPass1 l := by
  constructor
  · intro h
    rw [normPass1] at h
    obtain ⟨c, hc, hcr⟩ := List.mem_map.mp h
    have hmem := List.of_mem_filter hc
    by_cases ht : c = '\t'
    · simp [ht] at hcr
    · rw [if_neg ht] at hcr
      subst hcr
      simpa using hmem
  · intro h
    rw [normPass1] at h
    obtain ⟨c, _, hcr⟩ := List.mem_map.mp h
    by_cases ht : c = '\t'
    · simp [ht] at hcr
    · rw [if_neg ht] at hcr
      exact ht hcr

theorem normPass1_eq_self (l : List Char)
    (h : ∀ c ∈ l, c ≠ '\r' ∧ c ≠ '\t') : normPass1 l = l := by
  induction l with
  | nil => rfl
  | cons a l ih =>
    have ha := h a (List.mem_cons_self a l)
    have step : normPass1 (a :: l) = a :: normPass1 l := by
      simp [normPass1, List.filter_cons, ha.1, if_neg ha.2]
    rw [step, ih (fun c hc => h c (List.mem_cons_of_mem a hc))]

theorem filter_nonWs_cons_ws (a : Char) (l : List Char) (h : isWs a = true) :
    (a :: l).filter (fun c => !(isWs c)) = l.filter (fun c => !(isWs c)) := by
  simp [List.filter_cons, h]

theorem filter_nonWs_cons_nonWs (a : Char) (l : List Char) (h : isWs a = false) :
    (a :: l).filter (fun c => !(isWs c)) = a :: l.filter (fun c => !(isWs c)) := by
  simp [List.filter_cons, h]

theorem filter_nonWs_normPass1 (l : List Char) :
    (normPass1 l).filter (fun c => !(isWs c)) = l.filter (fun c => !(isWs c)) := by
  induction l with
  | nil => rfl
  | cons a l ih =>
    by_cases hr : a = '\r'
    · subst hr
      have h1 : normPass1 ('\r' :: l) = normPass1 l := by
        simp [normPass1, List.filter_cons]
      rw [h1, ih, filter_nonWs_cons_ws _ _ (by decide)]
    · by_cases ht : a = '\t'
      · subst ht
        have h1 : normPass1 ('\t' :: l) = ' ' :: normPass1 l := by
          simp [normPass1, List.filter_cons]
        rw [h1, filter_nonWs_cons_ws _ _ (by decide),
            filter_nonWs_cons_ws _ _ (by decide), ih]
      · have h1 : normPass1 (a :: l) = a :: normPass1 l := by
          simp [normPass1, List.filter_cons, hr, if_neg ht]
        rw [h1]
        by_cases hw : isWs a = true
        · rw [filter_nonWs_cons_ws _ _ hw, filter_nonWs_cons_ws _ _ hw, ih]
        · have hw2 : isWs a = false := by
            cases hv : isWs a
            · rfl
            · exact absurd hv hw
          rw [filter_nonWs_cons_nonWs _ _ hw2, filter_nonWs_cons_nonWs _ _ hw2, ih]

theorem filter_nonWs_squeezeSp (l : List Char) :
    (squeezeSp l).filter (fun c => !(isWs c)) = l.filter (fun c => !(isWs c)) := by
  induction l with
  | nil => rfl
  | cons a l ih =>
    cases l with
    | nil => rfl
    | cons b rest =>
      by_cases hab : a = ' ' ∧ b = ' '
      · obtain ⟨ha, hb⟩ := hab
        subst ha
        subst hb
        rw [squeezeSp, if_pos ⟨rfl, rfl⟩, ih,
            filter_nonWs_cons_ws ' ' (' ' :: rest) (by decide)]
      · rw [squeezeSp, if_neg hab]
        by_cases hw : isWs a = true
        · rw [filter_nonWs_cons_ws _ _ hw, filter_nonWs_cons_ws _ _ hw, ih]
        · have hw2 : isWs a = false := by
            cases hv : isWs a
            · rfl
            · exact absurd hv hw
          rw [filter_nonWs_cons_nonWs _ _ hw2, filter_nonWs_cons_nonWs _ _ hw2, ih]

theorem filter_nonWs_squeezeNl (l : List Char) :
    (squeezeNl l).filter (fun c => !(isWs c)) = l.filter (fun c => !(isWs c)) := by
  induction l with
  | nil => rfl
  | cons a l ih =>
    cases l with
    | nil => rfl
    | cons b rest =>
      cases rest with
      | nil => rfl
      | cons c rs =>
        by_cases habc : a = '\n' ∧ b = '\n' ∧ c = '\n'
        · obtain ⟨ha, hb, hc⟩ := habc
          subst ha
          subst hb
          subst hc
          rw [squeezeNl, if_pos ⟨rfl, rfl, rfl⟩, ih,
              filter_nonWs_cons_ws '\n' ('\n' :: '\n' :: rs) (by decide)]
        · rw [squeezeNl, if_neg habc]
          by_cases hw : isWs a = true
          · rw [filter_nonWs_cons_ws _ _ hw, filter_nonWs_cons_ws _ _ hw, ih]
          · have hw2 : isWs a = false := by
              cases hv : isWs a
              · rfl
              · exact absurd hv hw
            rw [filter_nonWs_cons_nonWs _ _ hw2, filter_nonWs_cons_nonWs _ _ hw2, ih]

theorem normalizar_no_cr_tab (l : List Char) :
    '\r' ∉ normalizar l ∧ '\t' ∉ normalizar l := by
  have h := normPass1_no_cr_tab l
  exact ⟨fun hc => h.1 (mem_squeezeSp (mem_squeezeNl hc)),
         fun hc => h.2 (mem_squeezeSp (mem_squeezeNl hc))⟩

theorem noDoubleSp_normalizar (l : List Char) : noDoubleSp (normalizar l) = true :=
  noDoubleSp_squeezeNl _ (noDoubleSp_squeezeSp _)

theorem noTripleNl_normalizar (l : List Char) : noTripleNl (normalizar l) = true :=
  noTripleNl_squeezeNl _

/-- Claim C8 (amended): the Normalizer removes carriage returns (it does
not convert them to spaces), converts tabs to spaces, collapses runs of
spaces/tabs to one space, collapses runs of three or more newlines to
exactly two, and preserves every non-whitespace character in order. -/
theorem C8_normalizer_props (l : List Char) :
    '\r' ∉ normalizar l ∧ '\t' ∉ normalizar l ∧
    noDoubleSp (normalizar l) = true ∧ noTripleNl (normalizar l) = true ∧
    (normalizar l).filter (fun c => !(isWs c)) = l.filter (fun c => !(isWs c)) := by
  refine ⟨(normalizar_no_cr_tab l).1, (normalizar_no_cr_tab l).2,
    noDoubleSp_normalizar l, noTripleNl_normalizar l, ?_⟩
  calc (normalizar l).filter (fun c => !(isWs c))
      = (squeezeSp (normPass1 l)).filter (fun c => !(isWs c)) := filter_nonWs_squeezeNl _
    _ = (normPass1 l).filter (fun c => !(isWs c)) := filter_nonWs_squeezeSp _
    _ = l.filter (fun c => !(isWs c)) := filter_nonWs_normPass1 _

/-- Counterexample to claim C8 as stated: the claim says carriage returns
are converted to single spaces, so normalizing `"a\rb"` would have to
produce `"a b"`; the code deletes the carriage return and produces
`"ab"`. -/
theorem C8_counterexample :
    normalizar ('a' :: '\r' :: 'b' :: []) = 'a' :: 'b' :: [] ∧
    ('a' :: 'b' :: [] : List Char) ≠ 'a' :: ' ' :: 'b' :: [] := by
  decide

/-- Claim C9: the Normalizer is idempotent,
`normalize(normalize(x)) == normalize(x)`. -/
theorem C9_normalizar_idempotent (l : List Char) :
    normalizar (normalizar l) = normalizar l := by
  have h := normalizar_no_cr_tab l
  have h1 : normPass1 (normalizar l) = normalizar l :=
    normPass1_eq_self _ (fun c hc => ⟨fun e => h.1 (e ▸ hc), fun e => h.2 (e ▸ hc)⟩)
  show squeezeNl (squeezeSp (normPass1 (normalizar l))) = normalizar l
  rw [h1, squeezeSp_of_noDoubleSp _ (noDoubleSp_normalizar l),
      squeezeNl_of_noTripleNl _ (noTripleNl_normalizar l)]

/-! ### Lemmas about `fusionar_resultados` -/

theorem fusionar_get (b n : Extraccion) (f : Campo) :
    (fusionar_resultados b n).get f = fuseField (b.get f) (n.get f) := by
  cases f <;> rfl

theorem fuseField_keep (b n : Option String) (h : vacio b = false) :
    fuseField b n = b := by
  simp [fuseField, h]

theorem fuseField_fill (b n : Option String) (hb : vacio b = true)
    (hn : vacio n = false) : fuseField b n = n := by
  simp [fuseField, hb, hn]

theorem fuseField_both_empty (b n : Option String) (hn : vacio n = true) :
    fuseField b n = b := by
  simp [fuseField, hn]

theorem foldl_fusionar_keep (acc : Extraccion) (chunks : List Extraccion) (f : Campo)
    (h : vacio (acc.get f) = false) :
    (chunks.foldl fusionar_resultados acc).get f = acc.get f := by
  induction chunks generalizing acc with
  | nil => rfl
  | cons x xs ih =>
    have hstep : (fusionar_resultados acc x).get f = acc.get f := by
      rw [fusionar_get, fuseField_keep _ _ h]
    rw [List.foldl_cons, ih _ (by rw [hstep]; exact h), hstep]

/-- Claim C3: per-field behaviour of `fusionar_resultados` and of the
left-to-right per-chunk fold of `llm`: a non-empty base value is kept, an
empty base value is filled from `nuevo` when `nuevo` is non-empty; in the
fold, a field once set is never overwritten, and an empty field receives
the value of the first chunk that supplies a non-empty one. -/
theorem C3_fusionar_merge :
    (∀ (b n : Extraccion) (f : Campo), vacio (b.get f) = false →
        (fusionar_resultados b n).get f = b.get f)
    ∧ (∀ (b n : Extraccion) (f : Campo), vacio (b.get f) = true → vacio (n.get f) = false →
        (fusionar_resultados b n).get f = n.get f)
    ∧ (∀ (acc : Extraccion) (chunks : List Extraccion) (f : Campo),
        vacio (acc.get f) = false →
        (chunks.foldl fusionar_resultados acc).get f = acc.get f)
    ∧ (∀ (acc : Extraccion) (pre : List Extraccion) (c : Extraccion)
        (post : List Extraccion) (f : Campo), vacio (acc.get f) = true →
        (∀ x ∈ pre, vacio (x.get f) = true) → vacio (c.get f) = false →
        ((pre ++ c :: post).foldl fusionar_resultados acc).get f = c.get f) := by
  refine ⟨?keep, ?fill, foldl_fusionar_keep, ?fold⟩
  case keep =>
    intro b n f h
    rw [fusionar_get, fuseField_keep _ _ h]
  case fill =>
    intro b n f hb hn
    rw [fusionar_get, fuseField_fill _ _ hb hn]
  case fold =>
    intro acc pre c post f hacc hpre hc
    induction pre generalizing acc with
    | nil =>
      have hstep : (fusionar_resultados acc c).get f = c.get f := by
        rw [fusionar_get, fuseField_fill _ _ hacc hc]
      rw [List.nil_append, List.foldl_cons,
        foldl_fusionar_keep _ _ _ (by rw [hstep]; exact hc), hstep]
    | cons x xs ih =>
      have hx := hpre x (List.mem_cons_self x xs)
      have hstep : (fusionar_resultados acc x).get f = acc.get f := by
        rw [fusionar_get, fuseField_both_empty _ _ hx]
      rw [List.cons_append, List.foldl_cons]
      exact ih _ (by rw [hstep]; exact hacc)
        (fun y hy => hpre y (List.mem_cons_of_mem x hy))

/-- Witness for claim C3: on concrete inputs, an empty accumulator field
is filled by the first non-empty chunk value and a set field survives a
later chunk. -/
theorem C3_witness :
    ((([⟨none, none, none, none, none, none⟩,
        ⟨none, none, some "1790085783001", none, none, none⟩,
        ⟨none, none, some "999", none, none, none⟩] : List Extraccion).foldl
          fusionar_resultados
          ⟨none, none, none, none, none, none⟩).get .ruc = some "1790085783001") :=
  C3_fusionar_merge.2.2.2
    ⟨none, none, none, none, none, none⟩
    [⟨none, none, none, none, none, none⟩]
    ⟨none, none, some "1790085783001", none, none, none⟩
    [⟨none, none, some "999", none, none, none⟩] .ruc
    (by decide) (by decide) (by decide)

/-- Claim C5 (amended): every accepted tax-ID value is a digit-only
string of length 10-13 that is not all-zero, all-one or all-nine; the
candidate `"0000000000000"` is rejected.  (The code does not reject other
repeated single digits.) -/
theorem C5_ruc_validation :
    (∀ r v, validar_ruc_llm r = some v →
        v.all isDig = true ∧ 10 ≤ v.length ∧ v.length ≤ 13 ∧
        v.all (fun c => decide (c = '0')) = false ∧
        v.all (fun c => decide (c = '1')) = false ∧
        v.all (fun c => decide (c = '9')) = false)
    ∧ validar_ruc_llm (some "0000000000000".data) = none := by
  refine ⟨?_, by decide⟩
  intro r v h
  match r with
  | none => simp [validar_ruc_llm] at h
  | some s =>
    simp only [validar_ruc_llm] at h
    split_ifs at h with h1 h2 h3
    have hv : only_digits s = v := Option.some.inj h
    subst hv
    refine ⟨?_, h2.1, h2.2, ?_, ?_, ?_⟩
    · rw [List.all_eq_true]
      intro c hc
      exact List.of_mem_filter (show c ∈ List.filter isDig s from hc)
    · cases hall : (only_digits s).all (fun c => decide (c = '0'))
      · rfl
      · exact absurd (Or.inl hall) h3
    · cases hall : (only_digits s).all (fun c => decide (c = '1'))
      · rfl
      · exact absurd (Or.inr (Or.inl hall)) h3
    · cases hall : (only_digits s).all (fun c => decide (c = '9'))
      · rfl
      · exact absurd (Or.inr (Or.inr hall)) h3

/-- Witness for claim C5: a real-shaped 13-digit tax ID is accepted and
the stated properties hold for it. -/
theorem C5_witness :
    "1790085783001".data.all isDig = true ∧
    10 ≤ "1790085783001".data.length ∧ "1790085783001".data.length ≤ 13 ∧
    "1790085783001".data.all (fun c => decide (c = '0')) = false ∧
    "1790085783001".data.all (fun c => decide (c = '1')) = false ∧
    "1790085783001".data.all (fun c => decide (c = '9')) = false :=
  C5_ruc_validation.1 (some "1790085783001".data) "1790085783001".data (by decide)

/-- Counterexample to claim C5 as stated: the claim says an accepted tax
ID is never a single repeated digit, but the code only rejects repeated
`0`, `1` and `9`; the all-`2` candidate `"2222222222"` is accepted. -/
theorem C5_counterexample :
    validar_ruc_llm (some "2222222222".data) = some "2222222222".data ∧
    "2222222222".data.all (fun c => decide (c = '2')) = true := by
  decide

/-! ### Lemmas about `update_postgres` -/

theorem mem_addUpdate (avail : List String) (cs : List SetClause) (col : String)
    (v : Option String) (sc : SetClause) :
    sc ∈ addUpdate avail cs col v ↔
      sc ∈ cs ∨ ∃ s, v = some s ∧ strip s.data ≠ [] ∧ col ∈ avail ∧ sc = .assign col s := by
  by_cases ha : col ∈ avail
  · match v with
    | none => simp [addUpdate, ha]
    | some s =>
      by_cases ht : strip s.data = []
      · simp [addUpdate, ha, ht]
      · simp [addUpdate, ha, ht]
  · match v with
    | none => simp [addUpdate, ha]
    | some s => simp [addUpdate, ha]

theorem mem_fieldClauses (avail : List String) (datos : String → Option String)
    (cs0 : List SetClause) (sc : SetClause) :
    sc ∈ fieldClauses avail datos cs0 ↔
      sc ∈ cs0 ∨ ∃ campo s, campo ∈ CONTRATISTA_FIELDS ∧ datos campo = some s ∧
        strip s.data ≠ [] ∧ campo ∈ avail ∧ sc = .assign campo s := by
  rw [fieldClauses]
  generalize CONTRATISTA_FIELDS = fields
  induction fields generalizing cs0 with
  | nil => simp
  | cons f fs ih =>
    rw [List.foldl_cons]
    by_cases hf : f ∈ avail
    · rw [if_pos hf, ih, mem_addUpdate]
      constructor
      · rintro ((h | ⟨s, hs, hts, hca, hsc⟩) | ⟨campo, s, hcm, hds, hts, hca, hsc⟩)
        · exact Or.inl h
        · exact Or.inr ⟨f, s, List.mem_cons_self f fs, hs, hts, hca, hsc⟩
        · exact Or.inr ⟨campo, s, List.mem_cons_of_mem f hcm, hds, hts, hca, hsc⟩
      · rintro (h | ⟨campo, s, hcm, hds, hts, hca, hsc⟩)
        · exact Or.inl (Or.inl h)
        · rcases List.mem_cons.mp hcm with hcf | hcfs
          · subst hcf
            exact Or.inl (Or.inr ⟨s, hds, hts, hca, hsc⟩)
          · exact Or.inr ⟨campo, s, hcfs, hds, hts, hca, hsc⟩
    · rw [if_neg hf, ih]
      constructor
      · rintro (h | ⟨campo, s, hcm, hds, hts, hca, hsc⟩)
        · exact Or.inl h
        · exact Or.inr ⟨campo, s, List.mem_cons_of_mem f hcm, hds, hts, hca, hsc⟩
      · rintro (h | ⟨campo, s, hcm, hds, hts, hca, hsc⟩)
        · exact Or.inl h
        · rcases List.mem_cons.mp hcm with hcf | hcfs
          · subst hcf
            exact absurd hca hf
          · exact Or.inr ⟨campo, s, hcfs, hds, hts, hca, hsc⟩

theorem no_assign_dateClause (avail : List String) (c v : String) :
    SetClause.assign c v ∉ dateClause avail := by
  intro h
  rw [dateClause] at h
  split at h
  · simp at h
  · split at h
    · simp at h
    · simp at h

theorem no_assign_fallbackClause (avail : List String) (c v : String) :
    SetClause.assign c v ∉ fallbackClause avail := by
  intro h
  rw [fallbackClause] at h
  split at h
  · simp_all
  · simp at h

theorem mem_preClauses (avail : List String) (datos : String → Option String)
    (fileName : Option String) (metaJson : String) (sc : SetClause) :
    sc ∈ preClauses avail datos fileName metaJson ↔
      (sc ∈ fieldClauses avail datos (dateClause avail) ∨
        (∃ s, fileName = some s ∧ strip s.data ≠ [] ∧ "fuente_archivo" ∈ avail ∧
          sc = .assign "fuente_archivo" s) ∨
        (sc = .metaMerge metaJson ∧ "metadata" ∈ avail)) := by
  have hcs2 : ∀ t, t ∈ (if "fuente_archivo" ∈ avail then
        addUpdate avail (fieldClauses avail datos (dateClause avail)) "fuente_archivo" fileName
      else fieldClauses avail datos (dateClause avail)) ↔
      (t ∈ fieldClauses avail datos (dateClause avail) ∨
        ∃ s, fileName = some s ∧ strip s.data ≠ [] ∧ "fuente_archivo" ∈ avail ∧
          t = .assign "fuente_archivo" s) := by
    intro t
    by_cases hfa : "fuente_archivo" ∈ avail
    · rw [if_pos hfa, mem_addUpdate]
    · rw [if_neg hfa]
      constructor
      · exact fun h => Or.inl h
      · rintro (h | ⟨s, _, _, hca, _⟩)
        · exact h
        · exact absurd hca hfa
  show sc ∈ (if "metadata" ∈ avail then
      (if "fuente_archivo" ∈ avail then
        addUpdate avail (fieldClauses avail datos (dateClause avail)) "fuente_archivo" fileName
      else fieldClauses avail datos (dateClause avail)) ++ [.metaMerge metaJson]
    else (if "fuente_archivo" ∈ avail then
        addUpdate avail (fieldClauses avail datos (dateClause avail)) "fuente_archivo" fileName
      else fieldClauses avail datos (dateClause avail))) ↔ _
  by_cases hmd : "metadata" ∈ avail
  · rw [if_pos hmd, List.mem_append, hcs2]
    simp [hmd, or_assoc]
  · rw [if_neg hmd, hcs2]
    constructor
    · rintro (h | h)
      · exact Or.inl h
      · exact Or.inr (Or.inl h)
    · rintro (h | h | ⟨_, hmd2⟩)
      · exact Or.inl h
      · exact Or.inr h
      · exact absurd hmd2 hmd

/-- Membership of a plain `column = %s` clause in the generated `SET`
list: it comes from the six-field loop or from `fuente_archivo`. -/
theorem mem_setClauses_assign (avail : List String) (datos : String → Option String)
    (fileName : Option String) (metaJson : String) (c v : String) :
    SetClause.assign c v ∈ setClauses avail datos fileName metaJson ↔
      ((∃ campo, campo ∈ CONTRATISTA_FIELDS ∧ c = campo ∧ datos campo = some v ∧
          strip v.data ≠ [] ∧ campo ∈ avail)
       ∨ (c = "fuente_archivo" ∧ "fuente_archivo" ∈ avail ∧ fileName = some v ∧
          strip v.data ≠ [])) := by
  rw [setClauses]
  by_cases h3 : preClauses avail datos fileName metaJson = []
  · rw [if_pos h3]
    constructor
    · intro h
      exact absurd h (no_assign_fallbackClause avail c v)
    · rintro (⟨campo, hcm, hcc, hds, hts, hca⟩ | ⟨hcc, hfa, hfn, hts⟩)
      · subst hcc
        have hin : SetClause.assign c v ∈ preClauses avail datos fileName metaJson :=
          (mem_preClauses avail datos fileName metaJson _).mpr
            (Or.inl ((mem_fieldClauses avail datos (dateClause avail) _).mpr
              (Or.inr ⟨c, v, hcm, hds, hts, hca, rfl⟩)))
        rw [h3] at hin
        simp at hin
      · subst hcc
        have hin : SetClause.assign "fuente_archivo" v ∈ preClauses avail datos fileName metaJson :=
          (mem_preClauses avail datos fileName metaJson _).mpr
            (Or.inr (Or.inl ⟨v, hfn, hts, hfa, rfl⟩))
        rw [h3] at hin
        simp at hin
  · rw [if_neg h3, mem_preClauses, mem_fieldClauses]
    constructor
    · rintro ((h | ⟨campo, s, hcm, hds, hts, hca, hsc⟩) | ⟨s, hfn, hts, hfa, hsc⟩ | ⟨hsc, _⟩)
      · exact absurd h (no_assign_dateClause avail c v)
      · cases hsc
        exact Or.inl ⟨c, hcm, rfl, hds, hts, hca⟩
      · cases hsc
        exact Or.inr ⟨rfl, hfa, hfn, hts⟩
      · cases hsc
    · rintro (⟨campo, hcm, hcc, hds, hts, hca⟩ | ⟨hcc, hfa, hfn, hts⟩)
      · subst hcc
        exact Or.inl (Or.inr ⟨c, v, hcm, hds, hts, hca, rfl⟩)
      · subst hcc
        exact Or.inr (Or.inl ⟨v, hfn, hts, hfa, rfl⟩)


theorem mem_dateClause (avail : List String) (sc : SetClause)
    (h : sc ∈ dateClause avail) :
    sc = .assignNow "updated_at" ∨ sc = .assignNow "fecha_actualizacion" := by
  rw [dateClause] at h
  split at h
  · exact Or.inl (List.eq_of_mem_singleton h)
  · split at h
    · exact Or.inr (List.eq_of_mem_singleton h)
    · simp at h

/-- Every generated clause targets `updated_at`, `fecha_actualizacion`,
`metadata`, `fuente_archivo`, a contractor field with a non-blank value,
or a date-like fallback column. -/
theorem col_setClauses (avail : List String) (datos : String → Option String)
    (fileName : Option String) (metaJson : String) (sc : SetClause)
    (h : sc ∈ setClauses avail datos fileName metaJson) :
    sc.col = "updated_at" ∨ sc.col = "fecha_actualizacion" ∨ sc.col = "metadata" ∨
    sc.col = "fuente_archivo" ∨
    (sc.col ∈ CONTRATISTA_FIELDS ∧ ∃ s, datos sc.col = some s ∧ strip s.data ≠ []) ∨
    (containsLC sc.col "fecha" || containsLC sc.col "updated" ||
      containsLC sc.col "actualizacion") = true := by
  rw [setClauses] at h
  split at h
  · rw [fallbackClause] at h
    split at h
    · next c hc =>
      have hp := List.find?_some hc
      have hsc := List.eq_of_mem_singleton h
      subst hsc
      exact Or.inr (Or.inr (Or.inr (Or.inr (Or.inr hp))))
    · simp at h
  · rw [mem_preClauses] at h
    rcases h with h | ⟨s, _, hts, _, hsc⟩ | ⟨hsc, _⟩
    · rw [mem_fieldClauses] at h
      rcases h with h | ⟨campo, s, hcm, hds, hts, _, hsc⟩
      · rcases mem_dateClause avail sc h with hsc | hsc
        · subst hsc
          exact Or.inl rfl
        · subst hsc
          exact Or.inr (Or.inl rfl)
      · subst hsc
        exact Or.inr (Or.inr (Or.inr (Or.inr (Or.inl ⟨hcm, s, hds, hts⟩))))
    · subst hsc
      exact Or.inr (Or.inr (Or.inr (Or.inl rfl)))
    · subst hsc
      exact Or.inr (Or.inr (Or.inl rfl))

theorem applyClause_other (nowVal : String) (jsonbConcat : Option String → String → String)
    (row : String → Option String) (sc : SetClause) (col : String)
    (h : sc.col ≠ col) : applyClause nowVal jsonbConcat row sc col = row col := by
  cases sc with
  | assign c v =>
    have hne : ¬(col = c) := fun e => h (by simp [SetClause.col, e])
    simp [applyClause, hne]
  | assignNow c =>
    have hne : ¬(col = c) := fun e => h (by simp [SetClause.col, e])
    simp [applyClause, hne]
  | metaMerge j =>
    have hne : ¬(col = "metadata") := fun e => h (by simp [SetClause.col, e])
    simp [applyClause, hne]

theorem applyClauses_frame (nowVal : String) (jsonbConcat : Option String → String → String)
    (row : String → Option String) (cs : List SetClause) (col : String)
    (h : ∀ sc ∈ cs, sc.col ≠ col) :
    applyClauses nowVal jsonbConcat row cs col = row col := by
  induction cs generalizing row with
  | nil => rfl
  | cons sc rest ih =>
    have hstep : applyClauses nowVal jsonbConcat row (sc :: rest) col
        = applyClauses nowVal jsonbConcat (applyClause nowVal jsonbConcat row sc) rest col := rfl
    rw [hstep, ih _ (fun t ht => h t (List.mem_cons_of_mem sc ht)),
      applyClause_other nowVal jsonbConcat row sc col (h sc (List.mem_cons_self sc rest))]

theorem map_fst_row_update (db : List (String × (String → Option String))) (codigo : String)
    (g : (String → Option String) → (String → Option String)) :
    (db.map (fun r => if r.1 = codigo then (r.1, g r.2) else r)).map Prod.fst
      = db.map Prod.fst := by
  induction db with
  | nil => rfl
  | cons a l ih =>
    by_cases hc : a.1 = codigo
    · simp [hc, ih]
    · simp [hc, ih]

/-- Claim C1: if no row carries the process code, `update_postgres`
returns `skipped` and the store is untouched; and on every input the list
of row keys is preserved — the step never inserts a row. -/
theorem C1_update_skip_no_insert :
    (∀ (db : List (String × (String → Option String))) (codigo : String)
        (avail : List String) (datos : String → Option String) (fileName : Option String)
        (metaJson nowVal : String) (jsonbConcat : Option String → String → String),
        db.find? (fun r => r.1 == codigo) = none →
        update_postgres db codigo avail datos fileName metaJson nowVal jsonbConcat
          = (db, .skipped))
    ∧ (∀ (db : List (String × (String → Option String))) (codigo : String)
        (avail : List String) (datos : String → Option String) (fileName : Option String)
        (metaJson nowVal : String) (jsonbConcat : Option String → String → String),
        ((update_postgres db codigo avail datos fileName metaJson nowVal jsonbConcat).1).map
            Prod.fst = db.map Prod.fst) := by
  constructor
  · intro db codigo avail datos fileName metaJson nowVal jsonbConcat h
    simp [update_postgres, h]
  · intro db codigo avail datos fileName metaJson nowVal jsonbConcat
    cases hf : db.find? (fun r => r.1 == codigo) with
    | none => simp [update_postgres, hf]
    | some r =>
      simp only [update_postgres, hf]
      split
      · rfl
      · exact map_fst_row_update db codigo
          (fun x => applyClauses nowVal jsonbConcat x (setClauses avail datos fileName metaJson))

/-- Witness for claim C1: a store holding only process `PROC-001`, asked
to persist under `PROC-002`, reports `skipped` and is returned
unchanged. -/
theorem C1_witness :
    update_postgres [("PROC-001", fun _ => none)] "PROC-002" [] (fun _ => none) none "" ""
        (fun _ _ => "") = ([("PROC-001", fun _ => none)], .skipped) :=
  C1_update_skip_no_insert.1 [("PROC-001", fun _ => none)] "PROC-002" [] (fun _ => none)
    none "" "" (fun _ _ => "") rfl

/-- Claim C2: a contractor-field column appears in the `SET` list exactly
when the pipeline's value for it is non-`None`, non-blank and the column
exists in the live schema; and a field with no value keeps its stored
value through the row update. -/
theorem C2_update_only_nonempty_fields :
    (∀ (avail : List String) (datos : String → Option String) (fileName : Option String)
        (metaJson : String) (f v : String), f ∈ CONTRATISTA_FIELDS →
        (SetClause.assign f v ∈ setClauses avail datos fileName metaJson ↔
          datos f = some v ∧ strip v.data ≠ [] ∧ f ∈ avail))
    ∧ (∀ (avail : List String) (datos : String → Option String) (fileName : Option String)
        (metaJson nowVal : String) (jsonbConcat : Option String → String → String)
        (row : String → Option String) (f : String), f ∈ CONTRATISTA_FIELDS →
        blankV (datos f) = true →
        applyClauses nowVal jsonbConcat row (setClauses avail datos fileName metaJson) f
          = row f) := by
  constructor
  · intro avail datos fileName metaJson f v hf
    rw [mem_setClauses_assign]
    constructor
    · rintro (⟨campo, _, hcc, hds, hts, hca⟩ | ⟨hcc, _, _, _⟩)
      · subst hcc
        exact ⟨hds, hts, hca⟩
      · subst hcc
        exact absurd hf (by decide)
    · rintro ⟨hds, hts, hca⟩
      exact Or.inl ⟨f, hf, rfl, hds, hts, hca⟩
  · intro avail datos fileName metaJson nowVal jsonbConcat row f hf hblank
    apply applyClauses_frame
    intro sc hsc hcol
    rcases col_setClauses avail datos fileName metaJson sc hsc with
      h1 | h1 | h1 | h1 | ⟨hmem, s, hds, hts⟩ | h6
    · have he : f = "updated_at" := hcol.symm.trans h1
      subst he
      exact absurd hf (by decide)
    · have he : f = "fecha_actualizacion" := hcol.symm.trans h1
      subst he
      exact absurd hf (by decide)
    · have he : f = "metadata" := hcol.symm.trans h1
      subst he
      exact absurd hf (by decide)
    · have he : f = "fuente_archivo" := hcol.symm.trans h1
      subst he
      exact absurd hf (by decide)
    · rw [hcol] at hds
      rw [hds] at hblank
      exact hts (by simpa [blankV] using hblank)
    · rw [hcol] at h6
      fin_cases hf <;> exact absurd h6 (by decide)

/-- Witness for claim C2: with only `ruc` present in the schema and a
non-blank extracted tax ID, the clause `ruc = %s` is generated; and with
a blank telefono the stored telefono survives the update. -/
theorem C2_witness :
    (SetClause.assign "ruc" "1790085783001" ∈
      setClauses ["ruc"] (fun c => if c = "ruc" then some "1790085783001" else none) none "{}")
    ∧ applyClauses "2026-01-01" (fun _ j => j)
        (fun c => if c = "telefono" then some "0999999999" else none)
        (setClauses ["telefono"] (fun _ => some "   ") none "{}") "telefono"
        = some "0999999999" := by
  constructor
  · exact (C2_update_only_nonempty_fields.1 ["ruc"]
      (fun c => if c = "ruc" then some "1790085783001" else none) none "{}"
      "ruc" "1790085783001" (by decide)).mpr ⟨by decide, by decide, by decide⟩
  · have h := C2_update_only_nonempty_fields.2 ["telefono"] (fun _ => some "   ") none "{}"
      "2026-01-01" (fun _ j => j)
      (fun c => if c = "telefono" then some "0999999999" else none) "telefono"
      (by decide) (by decide)
    rw [h]
    decide

/-! ### Lemmas about `normalize_phone` -/

theorem isDig_ne_of_not {c d : Char} (h : isDig c = true) (hd : isDig d = false) :
    c ≠ d := by
  intro e
  rw [e, hd] at h
  exact Bool.noConfusion h

theorem isWs_of_isDig {c : Char} (h : isDig c = true) : isWs c = false := by
  cases hw : isWs c
  · rfl
  · have hor : ((c = ' ' ∨ c = '\t') ∨ c = '\r') ∨ c = '\n' := by
      simpa [isWs, Char.isWhitespace] using hw
    rcases hor with ((e | e) | e) | e <;> (subst e; exact absurd h (by decide))

theorem dropWhile_eq_self_of (p : Char → Bool) (l : List Char)
    (h : ∀ c ∈ l, p c = false) : l.dropWhile p = l := by
  cases l with
  | nil => rfl
  | cons a t => rw [List.dropWhile_cons, h a (List.mem_cons_self a t)]; simp

theorem strip_eq_self_of (l : List Char) (h : ∀ c ∈ l, isWs c = false) :
    strip l = l := by
  rw [strip, dropWhile_eq_self_of _ _ h,
    dropWhile_eq_self_of _ _ (fun c hc => h c (List.mem_reverse.mp hc)), List.reverse_reverse]

theorem splitSep_eq_single (l : List Char) (h : ∀ c ∈ l, ¬(c = '/' ∨ c = ',')) :
    splitSep l = [l] := by
  induction l with
  | nil => rfl
  | cons a t ih =>
    rw [splitSep, if_neg (h a (List.mem_cons_self a t)),
      ih (fun c hc => h c (List.mem_cons_of_mem a hc))]

theorem caseFold_digit {c : Char} (h : isDig c = true) : caseFold c = c := by
  have h2 : '0' ≤ c ∧ c ≤ '9' := of_decide_eq_true h
  have hAZ : ¬('A' ≤ c ∧ c ≤ 'Z') := by
    rintro ⟨hA, _⟩
    exact absurd (le_trans hA h2.2) (by decide)
  have hA : c ≠ 'Á' := by intro e; subst e; exact absurd h (by decide)
  have hE : c ≠ 'É' := by intro e; subst e; exact absurd h (by decide)
  have hI : c ≠ 'Í' := by intro e; subst e; exact absurd h (by decide)
  have hO : c ≠ 'Ó' := by intro e; subst e; exact absurd h (by decide)
  have hU : c ≠ 'Ú' := by intro e; subst e; exact absurd h (by decide)
  have hN : c ≠ 'Ñ' := by intro e; subst e; exact absurd h (by decide)
  rw [caseFold, if_neg hAZ, if_neg hA, if_neg hE, if_neg hI, if_neg hO, if_neg hU, if_neg hN]

theorem startsWithCI_false_of_head (a : Char) (t : List Char) (p0 : Char) (pt : List Char)
    (h : caseFold a ≠ caseFold p0) : startsWithCI (a :: t) (p0 :: pt) = false := by
  apply decide_eq_false
  intro he
  rw [List.length_cons, List.take_succ_cons, List.map_cons, List.map_cons] at he
  exact h (List.cons.inj he).1

theorem extMatch_digits (l : List Char) (h : ∀ c ∈ l, isDig c = true) :
    extMatch l = false := by
  cases l with
  | nil => decide
  | cons a t =>
    have ha := h a (List.mem_cons_self a t)
    have hfold : caseFold a = a := caseFold_digit ha
    have h1 : startsWithCI (a :: t) ('e' :: 'x' :: 't' :: '.' :: []) = false :=
      startsWithCI_false_of_head a t 'e' _
        (by rw [hfold]; exact isDig_ne_of_not ha (by decide))
    have h2 : startsWithCI (a :: t) ('e' :: 'x' :: 't' :: []) = false :=
      startsWithCI_false_of_head a t 'e' _
        (by rw [hfold]; exact isDig_ne_of_not ha (by decide))
    have h3 : startsWithCI (a :: t) ('x' :: []) = false :=
      startsWithCI_false_of_head a t 'x' _
        (by rw [hfold]; exact isDig_ne_of_not ha (by decide))
    rw [extMatch, h1, h2, h3]
    rfl

theorem stripExt_digits (l : List Char) (h : ∀ c ∈ l, isDig c = true) :
    stripExt l = l := by
  rw [stripExt]
  have hfind : (List.range l.length).find? (fun p => extMatch (l.drop p)) = none := by
    rw [List.find?_eq_none]
    intro i _
    rw [extMatch_digits _ (fun c hc => h c (List.mem_of_mem_drop hc))]
    exact Bool.false_ne_true
  rw [hfind]

theorem norm593_digits (a : Char) (t : List Char) (h : isDig a = true) :
    norm593 (a :: t) = a :: t := by
  rw [norm593, if_neg]
  intro he
  have h4 : (a :: t).take 4 = a :: t.take 3 := List.take_succ_cons
  rw [h4] at he
  exact isDig_ne_of_not h (by decide) (List.cons.inj he).1

theorem only_digits_eq_self (l : List Char) (h : ∀ c ∈ l, isDig c = true) :
    only_digits l = l := List.filter_eq_self.mpr h

theorem all_isDig_of_isCel {p : List Char} (h : isCel p = true) :
    ∀ c ∈ p, isDig c = true := by
  rw [isCel, Bool.and_eq_true, List.all_eq_true] at h
  exact h.2

theorem all_isDig_of_isFijo {p : List Char} (h : isFijo p = true) :
    ∀ c ∈ p, isDig c = true := by
  rw [isFijo, Bool.and_eq_true, Bool.and_eq_true, List.all_eq_true] at h
  exact h.1.2

theorem ne_nil_of_shape {p : List Char} (h : isCel p = true ∨ isFijo p = true) :
    p ≠ [] := by
  intro e
  subst e
  rcases h with h | h <;> exact absurd h (by decide)

/-- On a string that already is a valid normalized phone number, the
whole pipeline of `normalize_phone` is the identity. -/
theorem normalize_phone_digits (p : List Char) (hsh : isCel p = true ∨ isFijo p = true) :
    normalize_phone (some p) = some p := by
  have hdig : ∀ c ∈ p, isDig c = true := by
    rcases hsh with h | h
    · exact all_isDig_of_isCel h
    · exact all_isDig_of_isFijo h
  have hnws : ∀ c ∈ p, isWs c = false := fun c hc => isWs_of_isDig (hdig c hc)
  have hstrip : strip p = p := strip_eq_self_of p hnws
  have hne : p ≠ [] := ne_nil_of_shape hsh
  have hsplit : splitSep p = [p] := splitSep_eq_single p (fun c hc hor => by
    rcases hor with e | e <;> (subst e; exact absurd (hdig _ hc) (by decide)))
  obtain ⟨a, t, rfl⟩ : ∃ a t, p = a :: t := by
    cases p with
    | nil => exact absurd rfl hne
    | cons a t => exact ⟨a, t, rfl⟩
  have hproc : processPart (a :: t) =
      (if isCel (a :: t) then some (true, a :: t)
       else if isFijo (a :: t) then some (false, a :: t) else none) := by
    simp only [processPart, hstrip, stripExt_digits _ hdig,
      norm593_digits a t (hdig a (List.mem_cons_self a t)), only_digits_eq_self _ hdig]
    simp
  simp only [normalize_phone]
  rw [hstrip, if_neg hne]
  rcases hsh with h | h
  · have hval : validPhones (a :: t) = [(true, a :: t)] := by
      simp [validPhones, hsplit, hproc, h]
    rw [hval]
    rfl
  · have hnc : isCel (a :: t) = false := by
      cases hc : isCel (a :: t)
      · rfl
      · rw [isCel, Bool.and_eq_true] at hc
        rw [isFijo, Bool.and_eq_true, Bool.and_eq_true] at h
        have h10 := of_decide_eq_true hc.1
        have h9 := of_decide_eq_true h.1.1
        omega
    have hval : validPhones (a :: t) = [(false, a :: t)] := by
      simp [validPhones, hsplit, hproc, hnc, h]
    rw [hval]
    rfl


theorem processPart_spec (part : List Char) (x : Bool × List Char)
    (h : processPart part = some x) :
    (x.1 = true ∧ isCel x.2 = true) ∨ (x.1 = false ∧ isFijo x.2 = true) := by
  simp only [processPart] at h
  split_ifs at h with h1 h2 h3
  all_goals first
    | exact Option.noConfusion h
    | (cases Option.some.inj h; exact Or.inl ⟨rfl, h2⟩)
    | (cases Option.some.inj h; exact Or.inr ⟨rfl, h3⟩)

theorem phoneFallback_spec (s p : List Char) (h : phoneFallback s = some p) :
    isCel p = true ∨ isFijo p = true := by
  simp only [phoneFallback] at h
  split_ifs at h with h1 h2
  all_goals first
    | exact Option.noConfusion h
    | (cases Option.some.inj h; exact Or.inl h1)
    | (cases Option.some.inj h; exact Or.inr h2)

theorem validPhones_spec (s : List Char) (x : Bool × List Char)
    (h : x ∈ validPhones s) :
    (x.1 = true ∧ isCel x.2 = true) ∨ (x.1 = false ∧ isFijo x.2 = true) := by
  rw [validPhones, List.mem_filterMap] at h
  obtain ⟨part, _, hp⟩ := h
  exact processPart_spec part x hp

/-- Shape of every value returned by `normalize_phone`. -/
theorem normalize_phone_shape (raw : Option (List Char)) (p : List Char)
    (h : normalize_phone raw = some p) : isCel p = true ∨ isFijo p = true := by
  match raw with
  | none => exact Option.noConfusion h
  | some r =>
    simp only [normalize_phone] at h
    by_cases hs : strip r = []
    · rw [if_pos hs] at h
      exact Option.noConfusion h
    · rw [if_neg hs] at h
      cases hf : (validPhones (strip r)).find? (fun x => x.1) with
      | some x =>
        rw [hf] at h
        have hx : some x.2 = some p := h
        cases Option.some.inj hx
        rcases validPhones_spec _ x (List.mem_of_find?_eq_some hf) with ⟨_, hc⟩ | ⟨_, hc⟩
        · exact Or.inl hc
        · exact Or.inr hc
      | none =>
        rw [hf] at h
        cases hv : validPhones (strip r) with
        | cons v vs =>
          rw [hv] at h
          have hx : some v.2 = some p := h
          cases Option.some.inj hx
          rcases validPhones_spec _ v (by rw [hv]; exact List.mem_cons_self v vs) with
            ⟨_, hc⟩ | ⟨_, hc⟩
          · exact Or.inl hc
          · exact Or.inr hc
        | nil =>
          rw [hv] at h
          exact phoneFallback_spec _ _ h

/-- Claim C6: `normalize_phone` returns `None` or a digit string matching
exactly one of `09\d{8}` (mobile) and `0[2-7]\d{7}` (landline); when the
split parts contain a valid mobile, the mobile is returned in preference
to any landline; on a concrete multi-value input the `/`-split, the
extension strip and the `+593` prefix normalization behave as stated. -/
theorem C6_normalize_phone :
    (∀ (raw : Option (List Char)) (p : List Char), normalize_phone raw = some p →
        isCel p = true ∨ isFijo p = true)
    ∧ (∀ r : List Char, (validPhones (strip r)).any (fun x => x.1) = true →
        ∃ p, normalize_phone (some r) = some p ∧ isCel p = true)
    ∧ normalize_phone (some "042345678 / +593 99 123 4567 ext. 12".data)
        = some "0991234567".data := by
  refine ⟨normalize_phone_shape, ?_, by decide⟩
  intro r hany
  have hs : strip r ≠ [] := by
    intro hnil
    rw [hnil] at hany
    exact absurd hany (by decide)
  rw [List.any_eq_true] at hany
  obtain ⟨x, hx, hx1⟩ := hany
  cases hy : (validPhones (strip r)).find? (fun v => v.1) with
  | none =>
    rw [List.find?_eq_none] at hy
    exact absurd hx1 (hy x hx)
  | some y =>
    refine ⟨y.2, ?_, ?_⟩
    · simp only [normalize_phone]
      rw [if_neg hs, hy]
    · have hspec := validPhones_spec _ y (List.mem_of_find?_eq_some hy)
      have hy1 := List.find?_some hy
      rcases hspec with ⟨_, hc⟩ | ⟨hf, _⟩
      · exact hc
      · rw [hy1] at hf
        exact Bool.noConfusion hf

/-- Witness for claim C6: the theorem applied to the accepted mobile
number `0991234567`. -/
theorem C6_witness :
    isCel "0991234567".data = true ∨ isFijo "0991234567".data = true :=
  C6_normalize_phone.1 (some "0991234567".data) "0991234567".data (by decide)

/-- Claim C10: `normalize_phone` is idempotent on its accepted outputs:
whenever it returns a phone string `p`, running it again on `p` returns
`p` unchanged. -/
theorem C10_normalize_phone_idem (s p : List Char)
    (h : normalize_phone (some s) = some p) :
    normalize_phone (some p) = some p :=
  normalize_phone_digits p (normalize_phone_shape (some s) p h)

/-- Witness for claim C10: normalizing `"+593 991234567"` yields
`"0991234567"`, and normalizing that output returns it unchanged. -/
theorem C10_witness :
    normalize_phone (some "0991234567".data) = some "0991234567".data :=
  C10_normalize_phone_idem "+593 991234567".data "0991234567".data (by decide)

set_option maxHeartbeats 1600000 in
/-- Counterexample to claim C7 as stated: `"Juan PEREZ"` satisfies every
condition of the claim (2 tokens, no digit, no company or office keyword,
length in range, each token starts with an uppercase letter and contains
only letters), yet `validar_representante` rejects it, because the token
pattern `[A-ZÁÉÍÓÚÑ][a-záéíóúñ\s-]*` only admits lowercase letters after
the initial. -/
theorem C7_counterexample :
    claimC7Accept "Juan PEREZ".data = true ∧
    validar_representante (some "Juan PEREZ".data) = false := by
  decide

/-- Claim C7 (amended): `validar_representante` accepts exactly the
candidates that, after honorific stripping, have 2-4 tokens, no digit, no
company keyword, no public-office-title keyword, length 6-120, and whose
every token starts with an uppercase letter (plain or accented) followed
only by lowercase letters, lowercase accented letters or hyphens. -/
theorem C7_validar_representante (s : List Char) :
    validar_representante (some s) = amendedC7Accept s := by
  rw [Bool.eq_iff_iff]
  simp only [validar_representante, amendedC7Accept, Bool.and_eq_true]
  constructor
  · rintro ⟨⟨⟨⟨hL, hD⟩, hE⟩, hG⟩, hN, hT⟩
    exact ⟨⟨⟨⟨⟨hN, hD⟩, hE⟩, hG⟩, hL⟩, hT⟩
  · rintro ⟨⟨⟨⟨⟨hN, hD⟩, hE⟩, hG⟩, hL⟩, hT⟩
    exact ⟨⟨⟨⟨hL, hD⟩, hE⟩, hG⟩, hN, hT⟩

/-! ### Lemmas about `pre_filtro` -/

theorem addBlock_ne_nil (bs : List (Nat × Nat)) (lo hi : Nat) :
    addBlock bs lo hi ≠ [] := by
  cases hf : bs.find? (overlaps lo hi) with
  | none =>
    have heq : addBlock bs lo hi = bs ++ [(lo, hi)] := by rw [addBlock, hf]
    rw [heq]
    simp
  | some b =>
    have heq : addBlock bs lo hi =
        if lo < b.1 ∨ b.2 < hi then (bs.erase b) ++ [(min lo b.1, max hi b.2)] else bs := by
      rw [addBlock, hf]
    rw [heq]
    split
    · simp
    · exact List.ne_nil_of_mem (List.mem_of_find?_eq_some hf)

theorem collectBlocks_ne_nil (tn : List Char) (ms : List PatMatch) (h : ms ≠ []) :
    collectBlocks tn ms ≠ [] := by
  rw [collectBlocks]
  have aux : ∀ (ms2 : List PatMatch) (acc : List (Nat × Nat)), acc ≠ [] ∨ ms2 ≠ [] →
      ms2.foldl (fun a m => addBlock a (m.ini - m.antes) (min tn.length (m.fin + m.despues))) acc ≠ [] := by
    intro ms2
    induction ms2 with
    | nil =>
      intro acc hd
      rcases hd with hd | hd
      · exact hd
      · exact absurd rfl hd
    | cons m rest ih =>
      intro acc _
      rw [List.foldl_cons]
      exact ih _ (Or.inl (addBlock_ne_nil _ _ _))
  exact aux ms [] (Or.inr h)

theorem addBlock_inv (n : Nat) (bs : List (Nat × Nat)) (lo hi : Nat)
    (hbs : ∀ b ∈ bs, b.1 < b.2 ∧ b.2 ≤ n) (hlo : lo < hi) (hhi : hi ≤ n) :
    ∀ b ∈ addBlock bs lo hi, b.1 < b.2 ∧ b.2 ≤ n := by
  intro b hb
  cases hf : bs.find? (overlaps lo hi) with
  | none =>
    have heq : addBlock bs lo hi = bs ++ [(lo, hi)] := by rw [addBlock, hf]
    rw [heq] at hb
    rcases List.mem_append.mp hb with h | h
    · exact hbs b h
    · have he := List.eq_of_mem_singleton h
      subst he
      exact ⟨hlo, hhi⟩
  | some b0 =>
    have heq : addBlock bs lo hi =
        if lo < b0.1 ∨ b0.2 < hi then (bs.erase b0) ++ [(min lo b0.1, max hi b0.2)] else bs := by
      rw [addBlock, hf]
    rw [heq] at hb
    have hb0 := hbs b0 (List.mem_of_find?_eq_some hf)
    split at hb
    · rcases List.mem_append.mp hb with h | h
      · exact hbs b (List.mem_of_mem_erase h)
      · have he := List.eq_of_mem_singleton h
        subst he
        refine ⟨?_, max_le hhi hb0.2⟩
        exact lt_of_le_of_lt (min_le_left lo b0.1) (lt_of_lt_of_le hlo (le_max_left hi b0.2))
    · exact hbs b hb

theorem collectBlocks_inv (tn : List Char) (ms : List PatMatch)
    (hm : ∀ m ∈ ms, m.ini < m.fin ∧ m.fin ≤ tn.length) :
    ∀ b ∈ collectBlocks tn ms, b.1 < b.2 ∧ b.2 ≤ tn.length := by
  rw [collectBlocks]
  have aux : ∀ (ms2 : List PatMatch) (acc : List (Nat × Nat)),
      (∀ m ∈ ms2, m.ini < m.fin ∧ m.fin ≤ tn.length) →
      (∀ b ∈ acc, b.1 < b.2 ∧ b.2 ≤ tn.length) →
      ∀ b ∈ ms2.foldl
        (fun a m => addBlock a (m.ini - m.antes) (min tn.length (m.fin + m.despues))) acc,
        b.1 < b.2 ∧ b.2 ≤ tn.length := by
    intro ms2
    induction ms2 with
    | nil => exact fun acc _ hacc => hacc
    | cons m rest ih =>
      intro acc hm2 hacc
      rw [List.foldl_cons]
      have hmm := hm2 m (List.mem_cons_self m rest)
      refine ih _ (fun x hx => hm2 x (List.mem_cons_of_mem m hx)) ?_
      refine addBlock_inv tn.length acc _ _ hacc ?_ (min_le_left _ _)
      exact lt_of_le_of_lt (Nat.sub_le m.ini m.antes)
        (lt_of_lt_of_le hmm.1 (le_min hmm.2 (Nat.le_add_right m.fin m.despues)))
  exact aux ms [] hm (by simp)

theorem mem_insertBlk (b x : Nat × Nat) (l : List (Nat × Nat)) :
    x ∈ insertBlk b l ↔ x = b ∨ x ∈ l := by
  induction l with
  | nil => simp [insertBlk]
  | cons a t ih =>
    rw [insertBlk]
    split
    · simp [List.mem_cons]
    · rw [List.mem_cons, ih, List.mem_cons]
      tauto

theorem insertBlk_ne_nil (b : Nat × Nat) (l : List (Nat × Nat)) :
    insertBlk b l ≠ [] := by
  cases l with
  | nil => simp [insertBlk]
  | cons a t =>
    rw [insertBlk]
    split
    · simp
    · simp

theorem mem_sortBlks (x : Nat × Nat) (l : List (Nat × Nat)) :
    x ∈ sortBlks l ↔ x ∈ l := by
  induction l with
  | nil => simp [sortBlks]
  | cons a t ih =>
    rw [sortBlks, mem_insertBlk, ih, List.mem_cons]

theorem sortBlks_ne_nil (l : List (Nat × Nat)) (h : l ≠ []) : sortBlks l ≠ [] := by
  cases l with
  | nil => exact absurd rfl h
  | cons a t => exact insertBlk_ne_nil a (sortBlks t)

theorem fuseBlks_inv (n : Nat) (l : List (Nat × Nat)) :
    (∀ b ∈ l, b.1 < b.2 ∧ b.2 ≤ n) → ∀ b ∈ fuseBlks l, b.1 < b.2 ∧ b.2 ≤ n := by
  induction l using fuseBlks.induct with
  | case1 => intro h; simpa [fuseBlks] using h
  | case2 b => intro h; simpa [fuseBlks] using h
  | case3 a b rest hc ih =>
    intro h
    rw [fuseBlks, if_pos hc]
    refine ih ?_
    intro x hx
    rcases List.mem_cons.mp hx with he | hx2
    · subst he
      have ha := h a (List.mem_cons_self a _)
      have hb := h b (List.mem_cons_of_mem a (List.mem_cons_self b rest))
      constructor
      · exact lt_of_lt_of_le ha.1 (le_max_right b.2 a.2)
      · exact max_le hb.2 ha.2
    · exact h x (List.mem_cons_of_mem a (List.mem_cons_of_mem b hx2))
  | case4 a b rest hc ih =>
    intro h
    rw [fuseBlks, if_neg hc]
    intro x hx
    rcases List.mem_cons.mp hx with he | hx2
    · subst he
      exact h x (List.mem_cons_self x _)
    · exact ih (fun y hy => h y (List.mem_cons_of_mem a hy)) x hx2

theorem fuseBlks_ne_nil (l : List (Nat × Nat)) : l ≠ [] → fuseBlks l ≠ [] := by
  induction l using fuseBlks.induct with
  | case1 => intro h; exact absurd rfl h
  | case2 b => intro h2; simp [fuseBlks]
  | case3 a b rest hc ih =>
    intro h2
    rw [fuseBlks, if_pos hc]
    exact ih (by simp)
  | case4 a b rest hc ih =>
    intro h2
    rw [fuseBlks, if_neg hc]
    simp

theorem slice_ne_nil (tn : List Char) (b : Nat × Nat) (h1 : b.1 < b.2)
    (h2 : b.2 ≤ tn.length) : slice tn b ≠ [] := by
  rw [slice]
  intro he
  have hlen := congrArg List.length he
  rw [List.length_take, List.length_drop] at hlen
  simp at hlen
  omega

theorem joinSep_ne_nil (x : List Char) (xs : List (List Char)) (hx : x ≠ []) :
    joinSep (x :: xs) ≠ [] := by
  cases xs with
  | nil => exact hx
  | cons y ys =>
    rw [joinSep]
    intro he
    rw [List.append_assoc, List.append_eq_nil] at he
    exact hx he.1

/-- Claim C4 (amended): the Block Isolator output never exceeds 12,000
characters; when no trigger pattern matches, the output is exactly the
first 8,000 characters of the normalized text; and the output is
non-empty whenever the normalized text is non-empty (matches are within
the bounds of the normalized text and non-degenerate). -/
theorem C4_pre_filtro :
    (∀ (texto : List Char) (ms : List PatMatch), (preFiltro texto ms).length ≤ 12000)
    ∧ (∀ texto : List Char, preFiltro texto [] = (normalizar texto).take 8000)
    ∧ (∀ (texto : List Char) (ms : List PatMatch),
        (∀ m ∈ ms, m.ini < m.fin ∧ m.fin ≤ (normalizar texto).length) →
        normalizar texto ≠ [] → preFiltro texto ms ≠ []) := by
  refine ⟨?_, ?_, ?_⟩
  · intro texto ms
    simp only [preFiltro]
    split_ifs with h1 h2 h3
    · simp
    · rw [List.length_take]
      omega
    · rw [List.length_take]
      omega
    · omega
  · intro texto
    by_cases ht : texto = []
    · subst ht
      rfl
    · simp only [preFiltro, if_neg ht]
      rw [if_pos (show collectBlocks (normalizar texto) [] = [] from rfl)]
  · intro texto ms hvalid hnorm
    have ht : texto ≠ [] := by
      intro e
      subst e
      exact hnorm rfl
    simp only [preFiltro, if_neg ht]
    by_cases hbs : collectBlocks (normalizar texto) ms = []
    · rw [if_pos hbs]
      intro he
      have hlen := congrArg List.length he
      rw [List.length_take, List.length_nil] at hlen
      have hne : (normalizar texto).length ≠ 0 :=
        fun h0 => hnorm (List.eq_nil_of_length_eq_zero h0)
      omega
    · rw [if_neg hbs]
      have hinv := collectBlocks_inv (normalizar texto) ms hvalid
      have hsinv : ∀ b ∈ sortBlks (collectBlocks (normalizar texto) ms),
          b.1 < b.2 ∧ b.2 ≤ (normalizar texto).length :=
        fun b hb => hinv b ((mem_sortBlks b _).mp hb)
      have hfinv := fuseBlks_inv (normalizar texto).length _ hsinv
      have hfne : fuseBlks (sortBlks (collectBlocks (normalizar texto) ms)) ≠ [] :=
        fuseBlks_ne_nil _ (sortBlks_ne_nil _ hbs)
      obtain ⟨f0, rest, hf⟩ := List.exists_cons_of_ne_nil hfne
      have hp0 := hfinv f0 (by rw [hf]; exact List.mem_cons_self f0 rest)
      have hs0 : slice (normalizar texto) f0 ≠ [] :=
        slice_ne_nil (normalizar texto) f0 hp0.1 hp0.2
      rw [hf, List.map_cons]
      have hjoin := joinSep_ne_nil (slice (normalizar texto) f0)
        (rest.map (slice (normalizar texto))) hs0
      split
      · intro he
        have hlen := congrArg List.length he
        rw [List.length_take, List.length_nil] at hlen
        have hjl : (joinSep (slice (normalizar texto) f0 ::
            rest.map (slice (normalizar texto)))).length ≠ 0 :=
          fun h0 => hjoin (List.eq_nil_of_length_eq_zero h0)
        omega
      · exact hjoin

/-- Witness for claim C4: a one-character document with no trigger match
produces a non-empty output (the 8,000-character fallback prefix). -/
theorem C4_witness : preFiltro ('a' :: []) [] ≠ [] :=
  C4_pre_filtro.2.2 ('a' :: []) [] (fun m hm => absurd hm (List.not_mem_nil m))
    (by decide)

/-- Counterexample to claim C4 as stated: the claim says the Block
Isolator output is never the empty string, but for the document
consisting of one carriage return the normalized text is empty, no
pattern matches, and `pre_filtro` returns the empty string. -/
theorem C4_counterexample : preFiltro ('\r' :: []) [] = [] := by
  decide

end Etl
